import Mathlib

/-!
Shallow embedding of `src/rrsa/src/maths.rs` (big-integer utilities for an
RSA toolkit) and verification of its specification.

Unsigned big integers (`BigUint`) are modelled as `ℕ`, signed big integers
(`BigInt`) as `ℤ`.  Rust `/` and `%` on `BigInt` truncate toward zero, so
they are modelled by `Int.tdiv` and the matching subtraction.  Functions
that panic are modelled as `Option`-valued, returning `none` where the
source panics.  Randomness is modelled by passing the drawn values
explicitly.
-/

namespace Rrsa

/-- Loop of `NumUtil::sz`: number of base-`radix` digits of a positive `n`
(the length of `to_str_radix(radix)` for `n ≠ 0`).  The `radix ≤ 1` guard
only serves totality; the source is always called with `radix = 16`. -/
def sz_go (radix : ℕ) (n : ℕ) : ℕ :=
  if h : n = 0 ∨ radix ≤ 1 then 0
  else sz_go radix (n / radix) + 1
termination_by n
decreasing_by
  push_neg at h
  exact Nat.div_lt_self (Nat.pos_of_ne_zero h.1) h.2

/-- Embedding of `NumUtil::sz for BigUint`: the length of the base-`radix`
string of the value (`to_str_radix(0)` is the one-character digit 0). -/
def sz (n : ℕ) (radix : ℕ) : ℕ :=
  if n = 0 then 1 else sz_go radix n

/-- Embedding of `NumUtil::sz_b`: `(sz(16) + 1) / 2`. -/
def sz_b (n : ℕ) : ℕ :=
  (sz n 16 + 1) / 2

/-- Loop of `NumUtil::expl_f for BigUint`: with `m = 2^(block_sz*8)`,
repeatedly push `op % m` and divide `op` by `m` while `op ≠ 0`.  The
`m ≤ 1` guard only serves totality (for `block_sz = 0` and a non-zero
value the Rust loop never terminates); all claims take `block_sz ≥ 1`. -/
def expl_go (m : ℕ) (op : ℕ) : List ℕ :=
  if h : op = 0 ∨ m ≤ 1 then []
  else op % m :: expl_go m (op / m)
termination_by op
decreasing_by
  push_neg at h
  exact Nat.div_lt_self (Nat.pos_of_ne_zero h.1) h.2

/-- Embedding of `NumUtil::expl_r for BigUint` (which runs `expl_f` on an
empty buffer): chunks of at most `block_sz` bytes, then reversed so the
most significant chunk comes first. -/
def expl_r (v : ℕ) (block_sz : ℕ) : List ℕ :=
  (expl_go (2 ^ (block_sz * 8)) v).reverse

/-- Embedding of `VecNumUtil::rejoin for Vec<BigUint>`.  The source panics
on an empty vector, modelled by `none`; otherwise it folds left with
`b = b * 2^(part.sz_b()*8) + part`. -/
def rejoin (parts : List ℕ) : Option ℕ :=
  if parts = [] then none
  else some (parts.foldl (fun b part => b * 2 ^ ( sz_b part * 8) + part) 0)

/-- Embedding of `VecNumUtil::rejoin for Vec<u8>`.  The source panics on an
empty vector, modelled by `none`; otherwise it folds left with
`b = b * 2^8 + part`. -/
def rejoin_u8 (parts : List ℕ) : Option ℕ :=
  if parts = [] then none
  else some (parts.foldl (fun b part => b * 2 ^ 8 + part) 0)

/-- Embedding of the constant `EXPCODE_TAB`: the 35 smallest primes. -/
def EXPCODE_TAB : List ℕ :=
  [2, 3, 5, 7, 11, 13, 17, 19, 23, 29, 31, 37, 41, 43, 47, 53, 59, 61, 67,
   71, 73, 79, 83, 89, 97, 101, 103, 107, 109, 113, 127, 131, 137, 139, 149]

/-- Embedding of the constant `PRIME_RN`, the fixed witness of `isprime`. -/
def PRIME_RN : ℕ := 12737213

/-- Embedding of the constant `PRIME_ROUNDS`. -/
def PRIME_ROUNDS : ℕ := 20

/-- Loop of `fmodpow`: square-and-multiply state with accumulator `res`,
working base `temp` and remaining exponent `e`, all modulo `n`. -/
def fmodpowAux (res temp e n : ℕ) : ℕ :=
  if h : e = 0 then res
  else
    fmodpowAux (if e % 2 = 1 then res * temp % n else res)
      (temp * temp % n) (e / 2) n
termination_by e
decreasing_by
  exact Nat.div_lt_self (Nat.pos_of_ne_zero h) one_lt_two

/-- Embedding of `fmodpow`: fast modular exponentiation. -/
def fmodpow (base exp num : ℕ) : ℕ :=
  fmodpowAux 1 base exp num

/-- Loop of `euclide`: the iterative extended Euclidean algorithm over
signed integers.  One iteration computes `q = r1 / r2` (truncated
division, as Rust `BigInt` division) and shifts the remainder and
coefficient pairs; the dead `v1, v2` pair of the source is carried
faithfully.  Terminates because `|r1 - q*r2| = |r1 tmod r2| < |r2|`. -/
def euclideAux (r1 r2 u1 u2 v1 v2 : ℤ) : ℤ :=
  if h : r2 = 0 then u1
  else
    euclideAux r2 (r1 - r1.tdiv r2 * r2) u2 (u1 - r1.tdiv r2 * u2) v2
      (v1 - r1.tdiv r2 * v2)
termination_by r2.natAbs
decreasing_by
  have key : r1 - r1.tdiv r2 * r2 = r1.tmod r2 := by
    linear_combination -Int.tmod_add_tdiv r1 r2
  rw [key]
  have main : ∀ s t : ℤ, 0 < t → (s.tmod t).natAbs < t.natAbs := by
    intro s t ht
    rcases le_or_lt 0 s with hs | hs
    · have h1 : 0 ≤ s.tmod t := Int.tmod_nonneg t hs
      have h2 : s.tmod t < t := Int.tmod_lt_of_pos s ht
      omega
    · have hneg : s.tmod t = -((-s).tmod t) := by
        have e1 := Int.tmod_add_tdiv (-s) t
        have e2 := Int.tmod_add_tdiv s t
        rw [Int.neg_tdiv] at e1
        linarith
      have h1 : 0 ≤ (-s).tmod t := Int.tmod_nonneg t (by omega)
      have h2 : (-s).tmod t < t := Int.tmod_lt_of_pos (-s) ht
      omega
  rcases lt_trichotomy r2 0 with hneg | hz | hpos
  · have hflip : r1.tmod r2 = r1.tmod (-r2) := by
      have := Int.tmod_neg r1 (-r2)
      simpa using this.symm
    rw [hflip, ← Int.natAbs_neg r2]
    exact main r1 (-r2) (by omega)
  · exact absurd hz h
  · exact main r1 r2 hpos

/-- Embedding of `euclide`: returns the Bézout coefficient `u1` for the
first argument, from initial pairs `(u1, u2) = (1, 0)`, `(v1, v2) = (1, 0)`. -/
def euclide (a b : ℤ) : ℤ :=
  euclideAux a b 1 0 1 0

/-- Embedding of `expcode`: the first entry of `EXPCODE_TAB` that does not
divide `num` evenly, if any. -/
def expcode (num : ℕ) : Option ℕ :=
  EXPCODE_TAB.find? (fun i => !(num % i == 0))

/-- Loop of `isprime`: runs `rounds` iterations, each returning `false`
immediately when `fmodpow(PRIME_RN % num, num - 1, num)` is not one. -/
def isprimeLoop (num : ℕ) : ℕ → Bool
  | 0 => true
  | rounds + 1 =>
    if fmodpow (PRIME_RN % num) (num - 1) num ≠ 1 then false
    else isprimeLoop num rounds

/-- Embedding of `isprime`: the Fermat test with the fixed witness
`PRIME_RN`, repeated `PRIME_ROUNDS` times. -/
def isprime (num : ℕ) : Bool :=
  isprimeLoop num PRIME_ROUNDS

/-- Spec-side single-round check for the refinement claim: one
deterministic test `fmodpow(FIXED_WITNESS mod n, n - 1, n) == 1`, stated
from the specification's words. -/
def isprime_single (num : ℕ) : Bool :=
  fmodpow (PRIME_RN % num) (num - 1) num == 1

/-- Digit rejection loop of `rand_primelike`, over the explicit list of
values drawn from `gen_range(1..10)`: keeps drawing while the digit is
even or equal to 5; `none` models a draw sequence that never yields an
acceptable digit. -/
def drawDigit : List ℕ → Option ℕ
  | [] => none
  | d :: rest => if d % 2 = 0 ∨ d = 5 then drawDigit rest else some d

/-- Embedding of `rand_primelike` with the randomness made explicit: `b`
is the value drawn by `gen_biguint(szb * 8)` and `draws` the successive
values drawn by `gen_range(1..10)`.  The source zeroes the last decimal
digit of `b` and adds the first acceptable digit. -/
def rand_primelike (b : ℕ) (draws : List ℕ) : Option ℕ :=
  (drawDigit draws).map (fun digit => b / 10 * 10 + digit)

/-! Helper lemmas about the embedded definitions. -/

theorem sz_go_zero (radix : ℕ) : sz_go radix 0 = 0 := by
  rw [sz_go.eq_def]
  simp

theorem sz_go_succ (radix n : ℕ) (h1 : n ≠ 0) (h2 : 2 ≤ radix) :
    sz_go radix n = sz_go radix (n / radix) + 1 := by
  rw [sz_go.eq_def]
  have : ¬(n = 0 ∨ radix ≤ 1) := by omega
  simp [this]

theorem sz_b_of_lt_256 (n : ℕ) (h : n < 256) : sz_b n = 1 := by
  unfold sz_b sz
  rcases eq_or_ne n 0 with rfl | hn
  · simp
  rcases lt_or_le n 16 with h16 | h16
  · rw [if_neg hn, sz_go_succ 16 n hn (by norm_num),
      Nat.div_eq_of_lt h16, sz_go_zero]
  · rw [if_neg hn, sz_go_succ 16 n hn (by norm_num),
      sz_go_succ 16 (n / 16) (by omega) (by norm_num)]
    have hz : n / 16 / 16 = 0 := by omega
    rw [hz, sz_go_zero]

theorem expl_go_zero (m : ℕ) : expl_go m 0 = [] := by
  rw [expl_go.eq_def]
  simp

theorem expl_go_succ (m op : ℕ) (h1 : op ≠ 0) (h2 : 2 ≤ m) :
    expl_go m op = op % m :: expl_go m (op / m) := by
  rw [expl_go.eq_def]
  have : ¬(op = 0 ∨ m ≤ 1) := by omega
  simp [this]

theorem expl_go_mem_lt (m : ℕ) (h : 2 ≤ m) :
    ∀ op, ∀ c ∈ expl_go m op, c < m := by
  intro op
  induction op using Nat.strong_induction_on with
  | _ op ih =>
    rcases eq_or_ne op 0 with rfl | hop
    · simp [expl_go_zero]
    · rw [expl_go_succ m op hop h]
      intro c hc
      rcases List.mem_cons.mp hc with rfl | hc
      · exact Nat.mod_lt op (by omega)
      · exact ih (op / m) (Nat.div_lt_self (Nat.pos_of_ne_zero hop) h) c hc

theorem expl_go_ne_nil (m op : ℕ) (h1 : op ≠ 0) (h2 : 2 ≤ m) :
    expl_go m op ≠ [] := by
  rw [expl_go_succ m op h1 h2]
  simp

theorem rejoin_fold_expl256 :
    ∀ op : ℕ,
      ((expl_go 256 op).reverse).foldl
        (fun b part => b * 2 ^ ( sz_b part * 8) + part) 0 = op := by
  intro op
  induction op using Nat.strong_induction_on with
  | _ op ih =>
    rcases eq_or_ne op 0 with rfl | hop
    · simp [expl_go_zero]
    · rw [expl_go_succ 256 op hop (by norm_num)]
      rw [List.reverse_cons, List.foldl_append,
        ih (op / 256) (Nat.div_lt_self (Nat.pos_of_ne_zero hop) (by norm_num))]
      simp only [List.foldl_cons, List.foldl_nil]
      rw [sz_b_of_lt_256 (op % 256) (Nat.mod_lt op (by norm_num))]
      omega

theorem fmodpowAux_eq (e res temp n : ℕ) :
    fmodpowAux res temp e n = if e = 0 then res else res * temp ^ e % n := by
  induction e using Nat.strong_induction_on generalizing res temp with
  | _ e ih =>
    rcases eq_or_ne e 0 with rfl | he
    · rw [fmodpowAux.eq_def]
      simp
    rw [fmodpowAux.eq_def, dif_neg he,
      ih (e / 2) (Nat.div_lt_self (Nat.pos_of_ne_zero he) one_lt_two),
      if_neg he]
    rcases eq_or_ne (e % 2) 1 with h2 | h2
    · rw [if_pos h2]
      rcases eq_or_ne (e / 2) 0 with hhalf | hhalf
      · have he1 : e = 1 := by omega
        rw [if_pos hhalf, he1, pow_one]
      · rw [if_neg hhalf]
        have hx : (res * temp % n) * (temp * temp % n) ^ (e / 2) ≡
            res * temp ^ e [MOD n] := by
          calc (res * temp % n) * (temp * temp % n) ^ (e / 2)
              ≡ res * temp * (temp * temp) ^ (e / 2) [MOD n] :=
                Nat.ModEq.mul (Nat.mod_modEq _ n) ((Nat.mod_modEq _ n).pow _)
            _ = res * temp ^ e := by
                have hsplit : e = 2 * (e / 2) + 1 := by omega
                conv_rhs => rw [hsplit]
                ring
        exact hx
    · have hhalf : e / 2 ≠ 0 := by omega
      rw [if_neg h2, if_neg hhalf]
      have hx : res * (temp * temp % n) ^ (e / 2) ≡ res * temp ^ e [MOD n] := by
        calc res * (temp * temp % n) ^ (e / 2)
            ≡ res * (temp * temp) ^ (e / 2) [MOD n] :=
              Nat.ModEq.mul_left res ((Nat.mod_modEq _ n).pow _)
          _ = res * temp ^ e := by
              have hsplit : e = 2 * (e / 2) := by omega
              conv_rhs => rw [hsplit]
              ring
      exact hx

theorem fmodpow_eq (base e n : ℕ) :
    fmodpow base e n = if e = 0 then 1 else base ^ e % n := by
  rw [fmodpow, fmodpowAux_eq]
  simp

theorem fmodpow_eq_pow_mod (base e n : ℕ) (h : 1 < n) :
    fmodpow base e n = base ^ e % n := by
  rw [fmodpow_eq]
  rcases eq_or_ne e 0 with rfl | he
  · rw [if_pos rfl, pow_zero, Nat.mod_eq_of_lt h]
  · rw [if_neg he]

theorem isprimeLoop_succ_eq (num k : ℕ) :
    isprimeLoop num (k + 1) =
      decide (fmodpow (PRIME_RN % num) (num - 1) num = 1) := by
  induction k with
  | zero =>
    rw [isprimeLoop]
    rcases eq_or_ne (fmodpow (PRIME_RN % num) (num - 1) num) 1 with h | h
    · simp [h, isprimeLoop]
    · simp [h]
  | succ k ih =>
    rw [isprimeLoop]
    rcases eq_or_ne (fmodpow (PRIME_RN % num) (num - 1) num) 1 with h | h
    · simpa [h] using ih
    · simp [h]

theorem isprime_eq_check (num : ℕ) :
    isprime num = decide (fmodpow (PRIME_RN % num) (num - 1) num = 1) := by
  rw [isprime, PRIME_ROUNDS]
  exact isprimeLoop_succ_eq num 19

theorem find?_some_split {p : ℕ → Bool} :
    ∀ (L : List ℕ) (c : ℕ),
      L.find? p = some c ↔
        ∃ l1 l2, L = l1 ++ c :: l2 ∧ p c = true ∧ ∀ x ∈ l1, p x = false := by
  intro L
  induction L with
  | nil =>
    intro c
    simp
  | cons a L ih =>
    intro c
    rcases ha : p a with hfa | hta
    · rw [List.find?_cons, ha]
      constructor
      · intro h
        obtain ⟨l1, l2, hsplit, hc, hall⟩ := (ih c).mp h
        exact ⟨a :: l1, l2, by rw [hsplit, List.cons_append],
          hc, by simpa [ha] using hall⟩
      · rintro ⟨l1, l2, hsplit, hc, hall⟩
        rcases l1 with _ | ⟨x, l1⟩
        · simp only [List.nil_append] at hsplit
          rw [List.cons.injEq] at hsplit
          rw [hsplit.1] at ha
          rw [ha] at hc
          exact absurd hc (by simp)
        · rw [List.cons_append, List.cons.injEq] at hsplit
          refine (ih c).mpr ⟨l1, l2, hsplit.2, hc, ?_⟩
          intro y hy
          exact hall y (hsplit.1 ▸ List.mem_cons_of_mem x hy)
    · rw [List.find?_cons, ha]
      constructor
      · intro h
        rw [Option.some.injEq] at h
        exact ⟨[], L, by rw [← h, List.nil_append], h ▸ ha, by simp⟩
      · rintro ⟨l1, l2, hsplit, hc, hall⟩
        rcases l1 with _ | ⟨x, l1⟩
        · simp only [List.nil_append] at hsplit
          rw [List.cons.injEq] at hsplit
          rw [hsplit.1]
        · rw [List.cons_append, List.cons.injEq] at hsplit
          have hxa : p a = false := hsplit.1 ▸ hall x (List.mem_cons_self x l1)
          rw [ha] at hxa
          exact absurd hxa (by simp)

theorem drawDigit_spec :
    ∀ (l : List ℕ) (d : ℕ),
      drawDigit l = some d → d ∈ l ∧ d % 2 ≠ 0 ∧ d ≠ 5 := by
  intro l
  induction l with
  | nil =>
    intro d h
    exact absurd h (by simp [drawDigit])
  | cons a l ih =>
    intro d h
    rw [drawDigit] at h
    by_cases hcond : a % 2 = 0 ∨ a = 5
    · rw [if_pos hcond] at h
      obtain ⟨hmem, hspec⟩ := ih d h
      exact ⟨List.mem_cons_of_mem a hmem, hspec⟩
    · rw [if_neg hcond] at h
      rw [Option.some.injEq] at h
      push_neg at hcond
      exact ⟨h ▸ List.mem_cons_self a l, h ▸ hcond.1, h ▸ hcond.2⟩

theorem euclideAux_gcd (a b : ℤ) :
    ∀ (fuel : ℕ) (n1 n2 : ℕ) (u1 u2 v1 v2 : ℤ),
      n2 ≤ fuel →
      (∃ x, a * u1 + b * x = (n1 : ℤ)) →
      (∃ y, a * u2 + b * y = (n2 : ℤ)) →
      ∃ v, a * euclideAux (n1 : ℤ) (n2 : ℤ) u1 u2 v1 v2 + b * v =
        (Nat.gcd n1 n2 : ℤ) := by
  intro fuel
  induction fuel with
  | zero =>
    intro n1 n2 u1 u2 v1 v2 hle h1 _
    have hn2 : n2 = 0 := by omega
    subst hn2
    rw [euclideAux.eq_def, dif_pos (by norm_num), Nat.gcd_zero_right]
    exact h1
  | succ fuel ih =>
    intro n1 n2 u1 u2 v1 v2 hle h1 h2
    rcases eq_or_ne n2 0 with rfl | hn2
    · rw [euclideAux.eq_def, dif_pos (by norm_num), Nat.gcd_zero_right]
      exact h1
    · have hn2z : (n2 : ℤ) ≠ 0 := Int.natCast_ne_zero.mpr hn2
      rw [euclideAux.eq_def, dif_neg hn2z]
      have htdiv : (n1 : ℤ).tdiv (n2 : ℤ) = ((n1 / n2 : ℕ) : ℤ) :=
        (Int.ofNat_tdiv n1 n2).symm
      have hmod : (n1 : ℤ) - (n1 : ℤ).tdiv (n2 : ℤ) * (n2 : ℤ) =
          ((n1 % n2 : ℕ) : ℤ) := by
        rw [htdiv]
        have := Nat.div_add_mod n1 n2
        push_cast
        push_cast at this
        linarith
      rw [hmod, htdiv]
      have hrec := ih n2 (n1 % n2) u2 (u1 - ((n1 / n2 : ℕ) : ℤ) * u2) v2
        (v1 - ((n1 / n2 : ℕ) : ℤ) * v2)
        (by have := Nat.mod_lt n1 (Nat.pos_of_ne_zero hn2); omega)
        h2 ?_
      · obtain ⟨v, hv⟩ := hrec
        refine ⟨v, ?_⟩
        rw [hv]
        congr 1
        rw [Nat.gcd_comm n2 (n1 % n2), ← Nat.gcd_rec n2 n1, Nat.gcd_comm n2 n1]
      · obtain ⟨x, hx⟩ := h1
        obtain ⟨y, hy⟩ := h2
        refine ⟨x - ((n1 / n2 : ℕ) : ℤ) * y, ?_⟩
        have hmodeq : ((n1 % n2 : ℕ) : ℤ) =
            (n1 : ℤ) - ((n1 / n2 : ℕ) : ℤ) * (n2 : ℤ) := by
          have := Nat.div_add_mod n1 n2
          push_cast
          push_cast at this
          linarith
        rw [hmodeq, ← hx, ← hy]
        ring

theorem expl_r_300 : expl_r 300 1 = [1, 44] := by
  rw [expl_r]
  have hm : (2 : ℕ) ^ (1 * 8) = 256 := by norm_num
  rw [hm, expl_go_succ 256 300 (by norm_num) (by norm_num)]
  have h1 : (300 : ℕ) % 256 = 44 := by norm_num
  have h2 : (300 : ℕ) / 256 = 1 := by norm_num
  rw [h1, h2, expl_go_succ 256 1 (by norm_num) (by norm_num)]
  have h3 : (1 : ℕ) % 256 = 1 := by norm_num
  have h4 : (1 : ℕ) / 256 = 0 := by norm_num
  rw [h3, h4, expl_go_zero]
  rfl

/-! Claim theorems. -/

/-- C1 (counterexample): the round trip fails as universally stated.  For
`v = 65541` and block size `b = 2`, `decompose` yields the chunks `[1, 5]`
and `rejoin` weights the chunk 5 by its own one-byte length instead of the
two-byte block size, rebuilding 261 instead of 65541. -/
theorem rejoin_expl_roundtrip_cex :
    rejoin (expl_r 65541 2) = some 261 ∧ (261 : ℕ) ≠ 65541 := by
  refine ⟨?_, by norm_num⟩
  have hchunks : expl_r 65541 2 = [1, 5] := by
    rw [expl_r]
    have hm : (2 : ℕ) ^ (2 * 8) = 65536 := by norm_num
    rw [hm, expl_go_succ 65536 65541 (by norm_num) (by norm_num)]
    have h1 : (65541 : ℕ) % 65536 = 5 := by norm_num
    have h2 : (65541 : ℕ) / 65536 = 1 := by norm_num
    rw [h1, h2, expl_go_succ 65536 1 (by norm_num) (by norm_num)]
    have h3 : (1 : ℕ) % 65536 = 1 := by norm_num
    have h4 : (1 : ℕ) / 65536 = 0 := by norm_num
    rw [h3, h4, expl_go_zero]
    rfl
  rw [hchunks, rejoin, if_neg (by simp)]
  simp only [List.foldl_cons, List.foldl_nil]
  rw [sz_b_of_lt_256 1 (by norm_num), sz_b_of_lt_256 5 (by norm_num)]
  norm_num

/-- C1 (amended): for block size 1 the chunks are the base-256 digits, each
of minimal byte length 1, so rejoining the decomposition of any `v > 0`
reproduces `v`; for larger block sizes the round trip can fail when a
non-leading chunk has minimal byte length below the block size. -/
theorem rejoin_expl_one_roundtrip (v : ℕ) (hv : v ≠ 0) :
    rejoin (expl_r v 1) = some v := by
  have hm : (2 : ℕ) ^ (1 * 8) = 256 := by norm_num
  have hne : expl_r v 1 ≠ [] := by
    rw [expl_r, hm]
    simp only [ne_eq, List.reverse_eq_nil_iff]
    exact expl_go_ne_nil 256 v hv (by norm_num)
  rw [rejoin, if_neg hne, expl_r, hm, rejoin_fold_expl256 v]

/-- Witness for the amended C1 at `v = 65537`. -/
theorem rejoin_expl_one_roundtrip_witness :
    (65537 : ℕ) ≠ 0 ∧ rejoin (expl_r 65537 1) = some 65537 :=
  ⟨by norm_num, rejoin_expl_one_roundtrip 65537 (by norm_num)⟩

/-- C2 (counterexample): at modulus `n = 1` the claimed law
`mod_pow(a, 0, n) = 1 mod n` fails, because the loop body never runs and
the accumulator is returned as the literal 1 while `1 mod 1 = 0`. -/
theorem fmodpow_zero_exp_mod_one_cex : fmodpow 5 0 1 ≠ 1 % 1 := by
  rw [fmodpow_eq]
  norm_num

/-- C2 (amended): for every base `a` and every modulus `n > 1` the power
laws hold: `mod_pow(a,0,n) = 1 mod n`, `mod_pow(a,1,n) = a mod n`, and
`mod_pow(a,b+c,n) = (mod_pow(a,b,n) * mod_pow(a,c,n)) mod n`.  At `n = 1`
the first law fails since `mod_pow(a,0,1)` returns the literal 1. -/
theorem fmodpow_laws_amended (a n : ℕ) (hn : 1 < n) :
    fmodpow a 0 n = 1 % n ∧ fmodpow a 1 n = a % n ∧
    ∀ b c : ℕ, fmodpow a (b + c) n = fmodpow a b n * fmodpow a c n % n := by
  refine ⟨?_, ?_, ?_⟩
  · rw [fmodpow_eq_pow_mod a 0 n hn, pow_zero]
  · rw [fmodpow_eq_pow_mod a 1 n hn, pow_one]
  · intro b c
    rw [fmodpow_eq_pow_mod a (b + c) n hn, fmodpow_eq_pow_mod a b n hn,
      fmodpow_eq_pow_mod a c n hn, pow_add, Nat.mul_mod]

/-- Witness for the amended C2 at `a = 3`, `n = 5`, `b = 2`, `c = 4`. -/
theorem fmodpow_laws_amended_witness :
    fmodpow 3 0 5 = 1 % 5 ∧ fmodpow 3 1 5 = 3 % 5 ∧
    fmodpow 3 (2 + 4) 5 = fmodpow 3 2 5 * fmodpow 3 4 5 % 5 :=
  ⟨(fmodpow_laws_amended 3 5 (by norm_num)).1,
   (fmodpow_laws_amended 3 5 (by norm_num)).2.1,
   (fmodpow_laws_amended 3 5 (by norm_num)).2.2 2 4⟩

/-- C3 (counterexample): over all signed integers the Bézout property
fails.  At `a = -3`, `b = 0` the loop never runs and `euclide` returns the
initial coefficient 1, but `-3 * 1 + 0 * v = -3` can never equal
`gcd(-3, 0) = 3`. -/
theorem euclide_bezout_cex :
    euclide (-3) 0 = 1 ∧
      ¬ ∃ v : ℤ, (-3) * euclide (-3) 0 + 0 * v = (Int.gcd (-3) 0 : ℤ) := by
  have h1 : euclide (-3) 0 = 1 := by
    rw [euclide, euclideAux.eq_def]
    norm_num
  refine ⟨h1, ?_⟩
  rintro ⟨v, hv⟩
  rw [h1] at hv
  have hg : Int.gcd (-3) 0 = 3 := by decide
  rw [hg] at hv
  norm_num at hv

/-- C3 (amended): for all non-negative signed integers `a` and `b` the
returned coefficient `u` admits a `v` with `a*u + b*v = gcd(a, b)`; in
particular `17 * euclide 17 3120 ≡ 1 (mod 3120)`.  For negative inputs the
final remainder can differ in sign from the non-negative gcd. -/
theorem euclide_bezout_amended :
    (∀ a b : ℤ, 0 ≤ a → 0 ≤ b →
      ∃ v : ℤ, a * euclide a b + b * v = (Int.gcd a b : ℤ)) ∧
    17 * euclide 17 3120 % 3120 = 1 := by
  have main : ∀ a b : ℤ, 0 ≤ a → 0 ≤ b →
      ∃ v : ℤ, a * euclide a b + b * v = (Int.gcd a b : ℤ) := by
    intro a b ha hb
    obtain ⟨m, rfl⟩ := Int.eq_ofNat_of_zero_le ha
    obtain ⟨n, rfl⟩ := Int.eq_ofNat_of_zero_le hb
    rw [euclide]
    have hgcd : Int.gcd (m : ℤ) (n : ℤ) = Nat.gcd m n := by
      rw [Int.gcd, Int.natAbs_ofNat, Int.natAbs_ofNat]
    rw [hgcd]
    exact euclideAux_gcd (m : ℤ) (n : ℤ) n m n 1 0 1 0 le_rfl
      ⟨0, by ring⟩ ⟨1, by ring⟩
  refine ⟨main, ?_⟩
  obtain ⟨v, hv⟩ := main 17 3120 (by norm_num) (by norm_num)
  have hg : Int.gcd 17 3120 = 1 := by norm_num
  rw [hg] at hv
  omega

/-- Witness for the amended C3 at `a = 4`, `b = 6`. -/
theorem euclide_bezout_amended_witness :
    ∃ v : ℤ, 4 * euclide 4 6 + 6 * v = (Int.gcd 4 6 : ℤ) :=
  euclide_bezout_amended.1 4 6 (by norm_num) (by norm_num)

/-- C4: decomposing 0 yields the empty chunk sequence, both rejoin
variants fail (return `none`, modelling the panic) exactly on empty input,
and hence rejoining the decomposition of 0 fails instead of returning 0. -/
theorem decompose_zero_rejoin_fails (b : ℕ) (_hb : 1 ≤ b) :
    expl_r 0 b = [] ∧ rejoin (expl_r 0 b) = none ∧
    (∀ l : List ℕ, rejoin l = none ↔ l = []) ∧
    (∀ l : List ℕ, rejoin_u8 l = none ↔ l = []) := by
  have h0 : expl_r 0 b = [] := by
    rw [expl_r, expl_go_zero, List.reverse_nil]
  have hrj : ∀ l : List ℕ, rejoin l = none ↔ l = [] := by
    intro l
    rcases eq_or_ne l [] with rfl | hl
    · simp [rejoin]
    · simp [rejoin, hl]
  have hrj8 : ∀ l : List ℕ, rejoin_u8 l = none ↔ l = [] := by
    intro l
    rcases eq_or_ne l [] with rfl | hl
    · simp [rejoin_u8]
    · simp [rejoin_u8, hl]
  exact ⟨h0, (hrj (expl_r 0 b)).mpr h0, hrj, hrj8⟩

/-- Witness for C4 at `b = 1`. -/
theorem decompose_zero_rejoin_fails_witness :
    expl_r 0 1 = [] ∧ rejoin (expl_r 0 1) = none ∧
    (rejoin [] = none ↔ ([] : List ℕ) = []) ∧
    (rejoin_u8 [] = none ↔ ([] : List ℕ) = []) := by
  obtain ⟨h1, h2, h3, h4⟩ := decompose_zero_rejoin_fails 1 (by norm_num)
  exact ⟨h1, h2, h3 [], h4 []⟩

/-- C5: because the witness `PRIME_RN` is a fixed constant, every round of
the 20-round loop computes the same value, so `isprime` coincides with the
single deterministic check `fmodpow(PRIME_RN mod n, n - 1, n) == 1`. -/
theorem isprime_eq_single_round (n : ℕ) (_hn : 0 < n) :
    isprime n = isprime_single n := by
  rw [isprime_eq_check, isprime_single]
  rcases eq_or_ne (fmodpow (PRIME_RN % n) (n - 1) n) 1 with h | h <;> simp [h]

/-- Witness for C5 at `n = 7`. -/
theorem isprime_eq_single_round_witness :
    0 < 7 ∧ isprime 7 = isprime_single 7 :=
  ⟨by norm_num, isprime_eq_single_round 7 (by norm_num)⟩

/-- C6: the primality test accepts 97 and rejects 100. -/
theorem isprime_97_and_100 : isprime 97 = true ∧ isprime 100 = false := by
  constructor
  · rw [isprime_eq_check, decide_eq_true_eq, PRIME_RN,
      fmodpow_eq_pow_mod _ _ _ (by norm_num)]
    decide
  · rw [isprime_eq_check, decide_eq_false_iff_not, PRIME_RN,
      fmodpow_eq_pow_mod _ _ _ (by norm_num)]
    decide

/-- C7: `expcode` returns the first entry of the 35-prime table that does
not divide `n`, and returns `none` exactly when every tabulated prime
divides `n`. -/
theorem expcode_first_nondivisor (n : ℕ) :
    (expcode n = none ↔ ∀ i ∈ EXPCODE_TAB, i ∣ n) ∧
    (∀ c : ℕ, expcode n = some c ↔
      ∃ l1 l2, EXPCODE_TAB = l1 ++ c :: l2 ∧ ¬ c ∣ n ∧ ∀ i ∈ l1, i ∣ n) := by
  constructor
  · rw [expcode, List.find?_eq_none]
    constructor
    · intro h i hi
      have := h i hi
      simpa [Nat.dvd_iff_mod_eq_zero] using this
    · intro h i hi
      simpa [Nat.dvd_iff_mod_eq_zero] using h i hi
  · intro c
    rw [expcode, find?_some_split]
    constructor
    · rintro ⟨l1, l2, hsp, hc, hall⟩
      exact ⟨l1, l2, hsp, by simpa [Nat.dvd_iff_mod_eq_zero] using hc,
        fun i hi => by simpa [Nat.dvd_iff_mod_eq_zero] using hall i hi⟩
    · rintro ⟨l1, l2, hsp, hc, hall⟩
      exact ⟨l1, l2, hsp, by simpa [Nat.dvd_iff_mod_eq_zero] using hc,
        fun i hi => by simpa [Nat.dvd_iff_mod_eq_zero] using hall i hi⟩

/-- Witness for C7: 2 is the first table entry not dividing 15. -/
theorem expcode_first_nondivisor_witness : expcode 15 = some 2 :=
  ((expcode_first_nondivisor 15).2 2).mpr
    ⟨[], [3, 5, 7, 11, 13, 17, 19, 23, 29, 31, 37, 41, 43, 47, 53, 59, 61,
      67, 71, 73, 79, 83, 89, 97, 101, 103, 107, 109, 113, 127, 131, 137,
      139, 149], rfl, by decide, by simp⟩

/-- C8: whatever the random outcomes, a value returned by
`rand_primelike` ends in a decimal digit from 1, 3, 7, 9, hence is
divisible by neither 2 nor 5. -/
theorem rand_primelike_last_digit (szb b : ℕ) (draws : List ℕ) (r : ℕ)
    (_hb : b < 2 ^ (szb * 8)) (hd : ∀ d ∈ draws, 1 ≤ d ∧ d < 10)
    (hr : rand_primelike b draws = some r) :
    (r % 10 = 1 ∨ r % 10 = 3 ∨ r % 10 = 7 ∨ r % 10 = 9) ∧
    ¬ 2 ∣ r ∧ ¬ 5 ∣ r := by
  rw [rand_primelike] at hr
  rcases hdraw : drawDigit draws with _ | d
  · rw [hdraw] at hr
    exact absurd hr (by simp)
  · rw [hdraw] at hr
    have hrd : b / 10 * 10 + d = r := by simpa using hr
    obtain ⟨hmem, hodd, hne5⟩ := drawDigit_spec draws d hdraw
    obtain ⟨hd1, hd10⟩ := hd d hmem
    subst hrd
    omega

/-- Witness for C8: drawing `b = 12345` and digits `4, 5, 7` yields 12347. -/
theorem rand_primelike_last_digit_witness :
    (12347 % 10 = 1 ∨ 12347 % 10 = 3 ∨ 12347 % 10 = 7 ∨ 12347 % 10 = 9) ∧
    ¬ 2 ∣ 12347 ∧ ¬ 5 ∣ 12347 :=
  rand_primelike_last_digit 2 12345 [4, 5, 7] 12347 (by norm_num)
    (by decide) (by decide)

/-- C9: every chunk produced by decomposition with block size `b ≥ 1` is
strictly below `2^(b*8)`. -/
theorem expl_chunks_lt (v b c : ℕ) (hb : 1 ≤ b) (hc : c ∈ expl_r v b) :
    c < 2 ^ (b * 8) := by
  rw [expl_r, List.mem_reverse] at hc
  have hm : 2 ≤ 2 ^ (b * 8) := by
    have h1 : (2 : ℕ) ^ 1 ≤ 2 ^ (b * 8) := Nat.pow_le_pow_right (by norm_num) (by omega)
    simpa using h1
  exact expl_go_mem_lt (2 ^ (b * 8)) hm v c hc

/-- Witness for C9: the chunk 44 of `decompose(300, 1)` is below `2^8`. -/
theorem expl_chunks_lt_witness : (44 : ℕ) < 2 ^ (1 * 8) :=
  expl_chunks_lt 300 1 44 (by norm_num) (by rw [expl_r_300]; decide)

/-- C10: `isprime 1 = true`: the witness reduces to `12737213 mod 1 = 0`,
the exponent to 0, and `fmodpow` returns the literal 1 for exponent 0 even
at modulus 1, so every round passes and 1 is reported prime. -/
theorem isprime_one_true :
    isprime 1 = true ∧ PRIME_RN % 1 = 0 ∧ (1 : ℕ) - 1 = 0 ∧
    fmodpow (PRIME_RN % 1) (1 - 1) 1 = 1 := by
  have hf : fmodpow (PRIME_RN % 1) (1 - 1) 1 = 1 := by
    rw [fmodpow_eq]
    norm_num
  refine ⟨?_, Nat.mod_one _, rfl, hf⟩
  rw [isprime_eq_check, decide_eq_true_eq]
  exact hf

end Rrsa
